import Mathlib

/-!
Verification development for the `rustyrender` ray-tracing engine.

The Rust sources are shallowly embedded in Lean 4.  Machine floating-point
values (`f32`) are modelled as exact numbers: rational numbers `ℚ` where the
code only adds, multiplies and compares, and real numbers `ℝ` where the code
takes square roots.  `f32` division by zero (IEEE NaN) is modelled explicitly
with `Option` in the one place the code can perform it (`Sphere::hit`).
Random number draws (`rand::thread_rng`) are modelled as explicit input
streams, following the design note of the specification that the RNG should
be injectable.  Mutable output buffers are modelled as functions `ℕ → ℕ`
from byte index to byte value, and channel/thread nondeterminism as
quantification over permutations of the emitted message list.
-/

/-- 3D vector with components in `α`, from `renderer/core/vector.rs`
(`struct Vec3 { x, y, z }`).  `Point3` and `Color` are aliases in the
source, so a single structure serves all three roles. -/
structure Vec3 (α : Type) where
  x : α
  y : α
  z : α
deriving DecidableEq, Repr

instance {α : Type} [Add α] : Add (Vec3 α) :=
  ⟨fun u v => ⟨u.x + v.x, u.y + v.y, u.z + v.z⟩⟩

instance {α : Type} [Sub α] : Sub (Vec3 α) :=
  ⟨fun u v => ⟨u.x - v.x, u.y - v.y, u.z - v.z⟩⟩

instance {α : Type} [Neg α] : Neg (Vec3 α) :=
  ⟨fun v => ⟨-v.x, -v.y, -v.z⟩⟩

/-- Elementwise product (`impl ops::Mul for Vec3`). -/
instance {α : Type} [Mul α] : Mul (Vec3 α) :=
  ⟨fun u v => ⟨u.x * v.x, u.y * v.y, u.z * v.z⟩⟩

/-- Scalar product (`impl ops::Mul<Vec3> for f32`). -/
instance {α : Type} [Mul α] : SMul α (Vec3 α) :=
  ⟨fun c v => ⟨c * v.x, c * v.y, c * v.z⟩⟩

/-- Scalar division (`impl ops::Div<f32> for Vec3`, also `/=`). -/
def Vec3.divScalar {α : Type} [Div α] (v : Vec3 α) (c : α) : Vec3 α :=
  ⟨v.x / c, v.y / c, v.z / c⟩

@[simp] theorem Vec3.add_def {α : Type} [Add α] (u v : Vec3 α) :
    u + v = ⟨u.x + v.x, u.y + v.y, u.z + v.z⟩ := rfl

@[simp] theorem Vec3.sub_def {α : Type} [Sub α] (u v : Vec3 α) :
    u - v = ⟨u.x - v.x, u.y - v.y, u.z - v.z⟩ := rfl

@[simp] theorem Vec3.neg_def {α : Type} [Neg α] (v : Vec3 α) :
    -v = ⟨-v.x, -v.y, -v.z⟩ := rfl

@[simp] theorem Vec3.mul_def {α : Type} [Mul α] (u v : Vec3 α) :
    u * v = ⟨u.x * v.x, u.y * v.y, u.z * v.z⟩ := rfl

@[simp] theorem Vec3.smul_def {α : Type} [Mul α] (c : α) (v : Vec3 α) :
    c • v = ⟨c * v.x, c * v.y, c * v.z⟩ := rfl

/-- `vector::dot`. -/
def dot {α : Type} [Mul α] [Add α] (u v : Vec3 α) : α :=
  u.x * v.x + u.y * v.y + u.z * v.z

/-- `Vec3::length_squared`. -/
def Vec3.length_squared {α : Type} [Mul α] [Add α] (v : Vec3 α) : α :=
  v.x * v.x + v.y * v.y + v.z * v.z

/-- `Vec3::length` (`f32::sqrt` modelled by `Real.sqrt`). -/
noncomputable def Vec3.length (v : Vec3 ℝ) : ℝ :=
  Real.sqrt v.length_squared

/-- `vector::unit_vector`: scale by the reciprocal length. -/
noncomputable def unit_vector (v : Vec3 ℝ) : Vec3 ℝ :=
  let invlen := 1 / v.length
  ⟨v.x * invlen, v.y * invlen, v.z * invlen⟩

/-- The `min!` macro of `renderer/core/aabb.rs` / `core/mod.rs`:
`if x < y { x } else { y }`. -/
def cmin {α : Type} [LinearOrder α] (x y : α) : α :=
  if x < y then x else y

/-- The `max!` macro of `renderer/core/aabb.rs` / `core/mod.rs`:
`if x > y { x } else { y }`. -/
def cmax {α : Type} [LinearOrder α] (x y : α) : α :=
  if x > y then x else y

theorem cmin_eq_min {α : Type} [LinearOrder α] (x y : α) : cmin x y = min x y := by
  unfold cmin
  rcases lt_trichotomy x y with h | h | h
  · rw [if_pos h, min_eq_left h.le]
  · subst h
    simp
  · rw [if_neg (not_lt.mpr h.le), min_eq_right h.le]

theorem cmax_eq_max {α : Type} [LinearOrder α] (x y : α) : cmax x y = max x y := by
  unfold cmax
  rcases lt_trichotomy x y with h | h | h
  · rw [if_neg (not_lt.mpr h.le), max_eq_right h.le]
  · subst h
    simp
  · rw [if_pos h, max_eq_left h.le]

/-- Axis-aligned bounding box from `renderer/core/aabb.rs`
(`struct AABB { box_min, box_max }`; the file `world.rs` spells the
same type `Aabb`).  Generic in the component type: rendering-time ray
tests use `ℚ` components, while `Region`'s running box starts from the
`(+inf, …)..(-inf, …)` sentinel and therefore uses `ℚ` extended with
`⊥`/`⊤` (modelling `f32::NEG_INFINITY` / `f32::INFINITY`). -/
structure Aabb (α : Type) where
  box_min : Vec3 α
  box_max : Vec3 α
deriving DecidableEq, Repr

/-- `AABB::expand`: componentwise `min!`/`max!` with `other`'s component
as the first macro argument, exactly as in the source. -/
def Aabb.expand {α : Type} [LinearOrder α] (self other : Aabb α) : Aabb α :=
  { box_min := ⟨cmin other.box_min.x self.box_min.x,
                cmin other.box_min.y self.box_min.y,
                cmin other.box_min.z self.box_min.z⟩,
    box_max := ⟨cmax other.box_max.x self.box_max.x,
                cmax other.box_max.y self.box_max.y,
                cmax other.box_max.z self.box_max.z⟩ }

/-- A ray as used by `AABB::hit`: origin, direction, and the
precomputed componentwise inverse direction.  `renderer/core/ray.rs`
in the snapshot has only `orig`/`dir`; the `invdir` field used by
`aabb.rs` is modelled from the spec: "the ray's precomputed inverse
direction". -/
structure RayQ where
  orig : Vec3 ℚ
  dir : Vec3 ℚ
  invdir : Vec3 ℚ
deriving DecidableEq, Repr

/-- Build a ray with `invdir` the componentwise reciprocal of `dir`
(modelled from the spec; exact when no component of `dir` is zero). -/
def RayQ.mk' (orig dir : Vec3 ℚ) : RayQ :=
  ⟨orig, dir, ⟨1 / dir.x, 1 / dir.y, 1 / dir.z⟩⟩

/-- `Ray::at` (`origin + t*direction`). -/
def RayQ.at (r : RayQ) (t : ℚ) : Vec3 ℚ :=
  r.orig + t • r.dir

/-- `AABB::hit` from `renderer/core/aabb.rs`, line for line.  Note that
the first slab — the one named `tx1`/`tx2` for the x axis — reads
`r.orig.y` and `r.invdir.y`, exactly as the source does. -/
def Aabb.hit (self : Aabb ℚ) (r : RayQ) (t : ℚ) : Prop :=
  let tx1 := (self.box_min.x - r.orig.y) * r.invdir.y
  let tx2 := (self.box_max.x - r.orig.y) * r.invdir.y
  let tmin0 := cmin tx1 tx2
  let tmax0 := cmax tx1 tx2
  let ty1 := (self.box_min.y - r.orig.y) * r.invdir.y
  let ty2 := (self.box_max.y - r.orig.y) * r.invdir.y
  let tmin1 := cmax tmin0 (cmin ty1 ty2)
  let tmax1 := cmin tmax0 (cmax ty1 ty2)
  let tz1 := (self.box_min.z - r.orig.z) * r.invdir.z
  let tz2 := (self.box_max.z - r.orig.z) * r.invdir.z
  let tmin2 := cmax tmin1 (cmin tz1 tz2)
  let tmax2 := cmin tmax1 (cmax tz1 tz2)
  tmax2 ≥ cmax 0 tmin2 ∧ tmin2 < t

instance (b : Aabb ℚ) (r : RayQ) (t : ℚ) : Decidable (b.hit r t) := by
  unfold Aabb.hit
  infer_instance

/-- The slab test as the spec states it: entry/exit distances for each
axis from that axis's own origin and inverse-direction components,
intervals intersected, accept iff non-empty and near edge below `t`. -/
def slabHit (self : Aabb ℚ) (r : RayQ) (t : ℚ) : Prop :=
  let tx1 := (self.box_min.x - r.orig.x) * r.invdir.x
  let tx2 := (self.box_max.x - r.orig.x) * r.invdir.x
  let tmin0 := cmin tx1 tx2
  let tmax0 := cmax tx1 tx2
  let ty1 := (self.box_min.y - r.orig.y) * r.invdir.y
  let ty2 := (self.box_max.y - r.orig.y) * r.invdir.y
  let tmin1 := cmax tmin0 (cmin ty1 ty2)
  let tmax1 := cmin tmax0 (cmax ty1 ty2)
  let tz1 := (self.box_min.z - r.orig.z) * r.invdir.z
  let tz2 := (self.box_max.z - r.orig.z) * r.invdir.z
  let tmin2 := cmax tmin1 (cmin tz1 tz2)
  let tmax2 := cmin tmax1 (cmax tz1 tz2)
  tmax2 ≥ cmax 0 tmin2 ∧ tmin2 < t

instance (b : Aabb ℚ) (r : RayQ) (t : ℚ) : Decidable (slabHit b r t) := by
  unfold slabHit
  infer_instance

/-- Membership of a point in a box, for stating that a ray geometrically
misses a box. -/
def Aabb.contains (b : Aabb ℚ) (p : Vec3 ℚ) : Prop :=
  b.box_min.x ≤ p.x ∧ p.x ≤ b.box_max.x ∧
  b.box_min.y ≤ p.y ∧ p.y ≤ b.box_max.y ∧
  b.box_min.z ≤ p.z ∧ p.z ≤ b.box_max.z

/-- The box `[1,2]³` and a ray from `(5,0,0)` along `(1,1,1)`: the ray's
x coordinate is always at least 5, so it can never enter the box. -/
def c2Box : Aabb ℚ :=
  ⟨⟨1, 1, 1⟩, ⟨2, 2, 2⟩⟩

def c2Ray : RayQ :=
  RayQ.mk' ⟨5, 0, 0⟩ ⟨1, 1, 1⟩

/-- C2: `AABB::hit` computes the x-axis slab from the ray's *y* origin
and inverse-direction components (`(box_min.x - r.orig.y) * r.invdir.y`),
so it is not the slab test the spec describes: for the box `[1,2]³` and
the ray `(5,0,0) + t·(1,1,1)` — which stays at `x ≥ 5` and never meets
the box — the code reports a hit while the per-axis slab test of the
spec reports a miss. -/
theorem aabb_hit_mixed_axis_bug :
    Aabb.hit c2Box c2Ray 1000 ∧
    ¬ slabHit c2Box c2Ray 1000 ∧
    ∀ t : ℚ, ¬ c2Box.contains (c2Ray.at t) := by
  refine ⟨?_, ?_, ?_⟩
  · norm_num [Aabb.hit, cmin, cmax, c2Box, c2Ray, RayQ.mk']
  · norm_num [slabHit, cmin, cmax, c2Box, c2Ray, RayQ.mk']
  · intro t h
    rcases h with ⟨h1, h2, h3, h4, -, -⟩
    simp only [RayQ.at, c2Ray, c2Box, RayQ.mk', Vec3.add_def, Vec3.smul_def] at h1 h2 h3 h4
    norm_num at h1 h2 h3 h4
    linarith

/-! ### Region bounding-box accumulation (`world.rs`, C8)

`Region::new` initialises `bounding_box` to
`(+inf,+inf,+inf)..(-inf,-inf,-inf)` and `Region::push` grows it with
`expand(obj.bounds())`.  The `f32` infinities are modelled by `⊤`/`⊥`
of `ℚ` extended with both. -/

/-- `ℚ` with `-∞` (`⊥`) and `+∞` (`⊤`), modelling the `f32` infinities
used by `Region::new`'s empty bounding box. -/
abbrev ExtQ := WithBot (WithTop ℚ)

/-- The empty box of `Region::new`: min corner `(+inf,+inf,+inf)`,
max corner `(-inf,-inf,-inf)`. -/
def emptyBox : Aabb ExtQ :=
  ⟨⟨⊤, ⊤, ⊤⟩, ⟨⊥, ⊥, ⊥⟩⟩

/-- The bounding box of a `Region` after pushing objects whose bounds
are `pushes`, in order: `Region::push` folds `expand` over the empty
box. -/
def regionBoundsAfter (pushes : List (Aabb ExtQ)) : Aabb ExtQ :=
  pushes.foldl Aabb.expand emptyBox

/-- The union of the pushed bounds as the spec words it: componentwise
minimum of all min corners and maximum of all max corners. -/
def unionBounds (pushes : List (Aabb ExtQ)) : Aabb ExtQ :=
  ⟨⟨((pushes.map (fun b => b.box_min.x)).foldr min ⊤),
    ((pushes.map (fun b => b.box_min.y)).foldr min ⊤),
    ((pushes.map (fun b => b.box_min.z)).foldr min ⊤)⟩,
   ⟨((pushes.map (fun b => b.box_max.x)).foldr max ⊥),
    ((pushes.map (fun b => b.box_max.y)).foldr max ⊥),
    ((pushes.map (fun b => b.box_max.z)).foldr max ⊥)⟩⟩

theorem expand_comm {α : Type} [LinearOrder α] (a b : Aabb α) :
    a.expand b = b.expand a := by
  simp only [Aabb.expand, cmin_eq_min, cmax_eq_max]
  exact congrArg₂ Aabb.mk
    (by rw [min_comm a.box_min.x, min_comm a.box_min.y, min_comm a.box_min.z])
    (by rw [max_comm a.box_max.x, max_comm a.box_max.y, max_comm a.box_max.z])

theorem expand_assoc {α : Type} [LinearOrder α] (a b c : Aabb α) :
    (a.expand b).expand c = a.expand (b.expand c) := by
  simp only [Aabb.expand, cmin_eq_min, cmax_eq_max]
  exact congrArg₂ Aabb.mk
    (by rw [min_assoc c.box_min.x, min_comm c.box_min.x, min_assoc b.box_min.x,
            min_assoc c.box_min.y, min_comm c.box_min.y, min_assoc b.box_min.y,
            min_assoc c.box_min.z, min_comm c.box_min.z, min_assoc b.box_min.z])
    (by rw [max_assoc c.box_max.x, max_comm c.box_max.x, max_assoc b.box_max.x,
            max_assoc c.box_max.y, max_comm c.box_max.y, max_assoc b.box_max.y,
            max_assoc c.box_max.z, max_comm c.box_max.z, max_assoc b.box_max.z])

theorem expand_right_comm {α : Type} [LinearOrder α] (b x y : Aabb α) :
    (b.expand x).expand y = (b.expand y).expand x := by
  rw [expand_assoc, expand_assoc, expand_comm x y]

theorem foldl_expand_perm {α : Type} [LinearOrder α] :
    ∀ {L₁ L₂ : List (Aabb α)}, L₁.Perm L₂ →
      ∀ b : Aabb α, L₁.foldl Aabb.expand b = L₂.foldl Aabb.expand b := by
  intro L₁ L₂ hp
  induction hp with
  | nil => intro b; rfl
  | cons x _ ih => intro b; exact ih (b.expand x)
  | swap x y l => intro b; rw [List.foldl, List.foldl, List.foldl, List.foldl,
      expand_right_comm]
  | trans _ _ ih₁ ih₂ => intro b; rw [ih₁ b, ih₂ b]

theorem foldl_cmin_eq_min {α : Type} [LinearOrder α] [OrderTop α] :
    ∀ (l : List α) (b : α),
      l.foldl (fun acc v => cmin v acc) b = min b (l.foldr min ⊤) := by
  intro l
  induction l with
  | nil => intro b; simp
  | cons v l ih =>
      intro b
      rw [List.foldl, ih (cmin v b), List.foldr, cmin_eq_min, min_comm v b,
        min_assoc]

theorem foldl_cmax_eq_max {α : Type} [LinearOrder α] [OrderBot α] :
    ∀ (l : List α) (b : α),
      l.foldl (fun acc v => cmax v acc) b = max b (l.foldr max ⊥) := by
  intro l
  induction l with
  | nil => intro b; simp
  | cons v l ih =>
      intro b
      rw [List.foldl, ih (cmax v b), List.foldr, cmax_eq_max, max_comm v b,
        max_assoc]

theorem foldl_expand_components {α : Type} [LinearOrder α] :
    ∀ (L : List (Aabb α)) (b : Aabb α),
      L.foldl Aabb.expand b =
        ⟨⟨(L.map (fun a => a.box_min.x)).foldl (fun acc v => cmin v acc) b.box_min.x,
          (L.map (fun a => a.box_min.y)).foldl (fun acc v => cmin v acc) b.box_min.y,
          (L.map (fun a => a.box_min.z)).foldl (fun acc v => cmin v acc) b.box_min.z⟩,
         ⟨(L.map (fun a => a.box_max.x)).foldl (fun acc v => cmax v acc) b.box_max.x,
          (L.map (fun a => a.box_max.y)).foldl (fun acc v => cmax v acc) b.box_max.y,
          (L.map (fun a => a.box_max.z)).foldl (fun acc v => cmax v acc) b.box_max.z⟩⟩ := by
  intro L
  induction L with
  | nil => intro b; rfl
  | cons a L ih => intro b; rw [List.foldl, ih (b.expand a)]; rfl

/-- C8: `expand` is commutative and associative; folding it over any
permutation of the pushed bounds yields the same `Region.bounding_box`,
and that box is the componentwise union of all pushed bounds. -/
theorem expand_fold_order_independent :
    (∀ a b : Aabb ExtQ, a.expand b = b.expand a) ∧
    (∀ a b c : Aabb ExtQ, (a.expand b).expand c = a.expand (b.expand c)) ∧
    (∀ L₁ L₂ : List (Aabb ExtQ), L₁.Perm L₂ →
      regionBoundsAfter L₁ = regionBoundsAfter L₂) ∧
    (∀ L : List (Aabb ExtQ), regionBoundsAfter L = unionBounds L) := by
  refine ⟨expand_comm, expand_assoc, ?_, ?_⟩
  · intro L₁ L₂ hp
    exact foldl_expand_perm hp emptyBox
  · intro L
    rw [regionBoundsAfter, foldl_expand_components, unionBounds]
    simp only [emptyBox, foldl_cmin_eq_min, foldl_cmax_eq_max]
    congr 1 <;> simp

/-- Two concrete boxes with rational corners, for the C8 witness. -/
def c8BoxA : Aabb ExtQ :=
  ⟨⟨(1 : ℚ), (2 : ℚ), (3 : ℚ)⟩, ⟨(6 : ℚ), (6 : ℚ), (6 : ℚ)⟩⟩

def c8BoxB : Aabb ExtQ :=
  ⟨⟨(-1 : ℚ), (-2 : ℚ), (-3 : ℚ)⟩, ⟨(4 : ℚ), (10 : ℚ), (4 : ℚ)⟩⟩

/-- Witness for C8: pushing two concrete boxes in either order produces
the same bounding box. -/
theorem expand_fold_order_independent_witness :
    regionBoundsAfter [c8BoxA, c8BoxB] = regionBoundsAfter [c8BoxB, c8BoxA] :=
  expand_fold_order_independent.2.2.1 [c8BoxA, c8BoxB] [c8BoxB, c8BoxA]
    (List.Perm.swap c8BoxB c8BoxA [])

/-! ### Errors and the render entry point (`renderer/mod.rs`,
`renderer/execute/error.rs`; C4, C5)

The entry point `render` is modelled in its release build
(`#[cfg(not(debug_assertions))]`), where a failed `condition_check!`
returns the error (the debug build panics instead).  The chosen compute
strategy is abstracted as a buffer transformer passed in as a
parameter: the model shows it is never applied on an error path. -/

/-- `ComputeError` from `renderer/execute/error.rs`.  `Communication`
wraps `mpsc::RecvError` (a unit struct) and `IOErr` wraps
`std::io::Error`; neither payload matters here. -/
inductive ComputeError where
  | ThreadPanicked
  | Communication
  | IOErr
deriving DecidableEq, Repr

/-- `RendererError` from `renderer/mod.rs`. -/
inductive RendererError where
  | ComputeErr (e : ComputeError)
  | BufferSize
  | InvalidParameter
  | InvalidScene
deriving DecidableEq, Repr

/-- The caller-owned output byte buffer, byte index to byte value. -/
def Buffer : Type := ℕ → ℕ

/-- `render` from `renderer/mod.rs` (release build): the five
`condition_check!` lines in source order, then the dispatch.  The scene
enters only through `numObjects` (`world.objects.is_empty()`), and the
selected strategy is the parameter `strategy` (the claim C4 is about
what happens before any strategy runs).  The returned pair is the
`Result` and the buffer as the caller sees it afterwards. -/
def render (samples_per_pixel max_depth numObjects : ℕ) (w h : ℕ)
    (pixels : Buffer) (strategy : Buffer → Buffer) :
    Except RendererError Unit × Buffer :=
  if samples_per_pixel = 0 then (.error .InvalidParameter, pixels)
  else if max_depth = 0 then (.error .InvalidParameter, pixels)
  else if w = 0 ∨ h = 0 then (.error .BufferSize, pixels)
  else if 4096 < w ∨ 4096 < h then (.error .BufferSize, pixels)
  else if numObjects = 0 then (.error .InvalidScene, pixels)
  else (.ok (), strategy pixels)

/-- A concrete buffer and a strategy that visibly modifies it, for the
C4 counterexample and witness. -/
def bufZero : Buffer := fun _ => 0

def stratBump : Buffer → Buffer := fun b i => b i + 1

/-- C4 counterexample: with `samples_per_pixel = 0` *and* `width = 0`,
`render` reports `InvalidParameter`, not the buffer-size error the
claim demands for `width = 0`: the checks run in source order and the
first failing one decides the error. -/
theorem render_error_priority_counterexample :
    render 0 5 1 0 7 bufZero stratBump = (.error .InvalidParameter, bufZero) ∧
    RendererError.InvalidParameter ≠ RendererError.BufferSize := by
  exact ⟨rfl, by simp⟩

/-- C4 (amended): the checks run in source order — samples/depth first,
then dimensions, then the scene — the first failing check names the
error, and on every error path the strategy never runs and the buffer
is returned unmodified. -/
theorem render_precondition_checks (samples_per_pixel max_depth numObjects w h : ℕ)
    (pixels : Buffer) (strategy : Buffer → Buffer) :
    ((samples_per_pixel = 0 ∨ max_depth = 0) →
      render samples_per_pixel max_depth numObjects w h pixels strategy =
        (.error .InvalidParameter, pixels)) ∧
    (samples_per_pixel ≠ 0 → max_depth ≠ 0 → (w = 0 ∨ h = 0 ∨ 4096 < w ∨ 4096 < h) →
      render samples_per_pixel max_depth numObjects w h pixels strategy =
        (.error .BufferSize, pixels)) ∧
    (samples_per_pixel ≠ 0 → max_depth ≠ 0 → w ≠ 0 → h ≠ 0 → w ≤ 4096 → h ≤ 4096 →
      numObjects = 0 →
      render samples_per_pixel max_depth numObjects w h pixels strategy =
        (.error .InvalidScene, pixels)) ∧
    (∀ e : RendererError,
      (render samples_per_pixel max_depth numObjects w h pixels strategy).1 = .error e →
      (render samples_per_pixel max_depth numObjects w h pixels strategy).2 = pixels) := by
  refine ⟨?_, ?_, ?_, ?_⟩
  · intro hc
    unfold render
    split_ifs <;> first | rfl | (exfalso; omega)
  · intro h1 h2 hc
    unfold render
    split_ifs <;> first | rfl | (exfalso; omega)
  · intro h1 h2 h3 h4 h5 h6 h7
    unfold render
    split_ifs <;> first | rfl | (exfalso; omega)
  · intro e
    unfold render
    split_ifs <;> simp

/-- Witness for C4: a zero sample count fails fast with
`InvalidParameter` and the buffer is untouched. -/
theorem render_precondition_checks_witness :
    render 0 5 1 8 7 bufZero stratBump = (.error .InvalidParameter, bufZero) :=
  (render_precondition_checks 0 5 1 8 7 bufZero stratBump).1 (Or.inl rfl)

/-! Worker failure surfacing (`renderer/execute/cpurender.rs`, C5).
A call to a dispatch strategy is modelled by what can be observed of
it: either a panic escapes the call, or it returns its `Result`.
Worker behaviour enters as explicit panic flags, and the collector's
`rx.recv()` results as an explicit stream (`none` = `RecvError`). -/

/-- Outcome of calling a dispatch function: a panic escapes, or the
function returns a value of its `Result` type. -/
inductive CallOutcome (ε α : Type) where
  | panicked
  | returned (v : Except ε α)

/-- A pixel message sent over the mpsc channel: `(x, y, (r, g, b))`. -/
def Msg : Type := ℕ × ℕ × (ℕ × ℕ × ℕ)

/-- `render_threaded` (the rayon row-banded strategy): the source
contains no panic handler and no error construction — the body is
`bands.into_par_iter().for_each(..)` followed by `Ok(())` — so a panic
in any band's worker is re-raised by rayon at the synchronization point
and escapes the call, and on the no-panic path the function returns
`Ok(())`.  `bandPanics` records which band closures panic. -/
def render_threaded_call (bandPanics : List Bool) : CallOutcome ComputeError Unit :=
  if bandPanics.any id then .panicked else .returned (.ok ())

/-- The collector loop of `render_threaded_naive`: `w*h` iterations of
`rx.recv()?`, each delivering a message or failing with `RecvError`,
which the `?` operator converts through `From<RecvError>` into
`ComputeError::Communication`. -/
def recvLoop (recvs : ℕ → Option Msg) : ℕ → ℕ → Except ComputeError (List Msg)
  | _, 0 => .ok []
  | k, n + 1 =>
    match recvs k with
    | none => .error .Communication
    | some m => (recvLoop recvs (k + 1) n).map (fun l => m :: l)

/-- `render_threaded_naive` (the column-banded mpsc strategy):
`crossbeam::scope` joins all workers and returns `Err` if any panicked,
which `map_err` turns into `ComputeError::ThreadPanicked`; only then
does the collector run its `w*h` `rx.recv()?` loop.  The messages the
loop accepts are returned in place of the buffer writes (the writes
themselves are the subject of C6). -/
def render_threaded_naive_call (workerPanics : List Bool)
    (recvs : ℕ → Option Msg) (total : ℕ) : CallOutcome ComputeError (List Msg) :=
  if workerPanics.any id then .returned (.error .ThreadPanicked)
  else .returned (recvLoop recvs 0 total)

/-- C5 counterexample: under the row-banded `render_threaded`, a
panicking worker makes the call itself panic — the panic is not caught
and converted into a `ComputeError`, contrary to the claim that every
multi-worker strategy converts worker panics at the synchronization
point. -/
theorem render_threaded_panic_not_converted :
    render_threaded_call [true] = .panicked ∧
    ∀ v : Except ComputeError Unit, render_threaded_call [true] ≠ .returned v := by
  refine ⟨rfl, ?_⟩
  intro v h
  exact CallOutcome.noConfusion h

theorem recvLoop_error_is_communication (recvs : ℕ → Option Msg) :
    ∀ (n k : ℕ) (e : ComputeError), recvLoop recvs k n = .error e →
      e = ComputeError.Communication := by
  intro n
  induction n with
  | zero =>
      intro k e h
      exact absurd h (by simp [recvLoop])
  | succ n ih =>
      intro k e h
      rw [recvLoop] at h
      cases hr : recvs k with
      | none =>
          rw [hr] at h
          exact (Except.error.inj h).symm
      | some m =>
          rw [hr] at h
          cases hl : recvLoop recvs (k + 1) n with
          | error e2 =>
              rw [hl] at h
              have h2 : (Except.error e2 : Except ComputeError (List Msg)) = .error e := h
              rw [← Except.error.inj h2]
              exact ih (k + 1) e2 hl
          | ok l =>
              rw [hl] at h
              exact absurd h (by simp [Except.map])

/-- C5 (amended): only the column-banded `render_threaded_naive`
converts failures — worker panics become `ThreadPanicked` at the
`crossbeam::scope` join, and the only error its receive loop can
surface is `Communication` (from a failed `recv` on a dropped channel);
the row-banded `render_threaded` converts nothing: a worker panic
escapes it as a panic, and on the no-panic path it returns `Ok(())`. -/
theorem compute_error_reporting (workerPanics : List Bool)
    (recvs : ℕ → Option Msg) (total : ℕ) :
    (workerPanics.any id = true →
      render_threaded_naive_call workerPanics recvs total =
        .returned (.error .ThreadPanicked)) ∧
    (workerPanics.any id = false →
      render_threaded_naive_call workerPanics recvs total =
        .returned (recvLoop recvs 0 total)) ∧
    (∀ e, recvLoop recvs 0 total = .error e → e = ComputeError.Communication) ∧
    (∀ bandPanics : List Bool, bandPanics.any id = true →
      render_threaded_call bandPanics = .panicked) ∧
    (∀ bandPanics : List Bool, bandPanics.any id = false →
      render_threaded_call bandPanics = .returned (.ok ())) := by
  refine ⟨?_, ?_, ?_, ?_, ?_⟩
  · intro h; simp [render_threaded_naive_call, h]
  · intro h; simp [render_threaded_naive_call, h]
  · intro e h; exact recvLoop_error_is_communication recvs total 0 e h
  · intro l h; simp [render_threaded_call, h]
  · intro l h; simp [render_threaded_call, h]

/-- Witness for C5: one panicked worker under the column-banded
strategy yields the `ThreadPanicked` error. -/
theorem compute_error_reporting_witness :
    render_threaded_naive_call [true] (fun _ => some (0, 0, (0, 0, 0))) 4 =
      .returned (.error .ThreadPanicked) :=
  (compute_error_reporting [true] (fun _ => some (0, 0, (0, 0, 0))) 4).1 rfl

/-! ### The scene graph nearest-hit query (`renderer/scene/world.rs`, C3)

`Region::hit` gates on the whole-scene bounding box, then linearly
scans `self.objects`, tightening `t_max` to the closest accepted `t`.
A boxed `dyn Hittable` is modelled by its `hit` method; `Region`'s
other fields do not enter this query. -/

/-- `HitRecord` from `renderer/scene/hittable.rs` (`p`, `normal`, `t`,
`front_face`; the material reference carried by some snapshots of the
record is irrelevant to the C3 query and omitted here). -/
structure HitRecordQ where
  p : Vec3 ℚ
  normal : Vec3 ℚ
  t : ℚ
  front_face : Bool
deriving DecidableEq, Repr

/-- A scene object (`Box<dyn Hittable>`) as `Region::hit` sees it: its
`hit(r, t_min, t_max) -> Option<HitRecord>` method. -/
structure ObjQ where
  hitf : RayQ → ℚ → ℚ → Option HitRecordQ

/-- `Region` restricted to the fields `Region::hit` reads. -/
structure RegionQ where
  objects : List ObjQ
  bounding_box : Aabb ℚ

/-- The scan loop of `Region::hit`: `closest_so_far` starts at `t_max`
and each accepted hit becomes the new upper bound for later objects. -/
def scanObjects (r : RayQ) (t_min : ℚ) :
    List ObjQ → ℚ → Option HitRecordQ → Option HitRecordQ
  | [], _, rec => rec
  | o :: rest, closest, rec =>
    match o.hitf r t_min closest with
    | some hrec => scanObjects r t_min rest hrec.t (some hrec)
    | none => scanObjects r t_min rest closest rec

/-- `Region::hit` from `world.rs`: return `None` straight away when the
bounding box is not hit, otherwise run the scan. -/
def RegionQ.hit (self : RegionQ) (r : RayQ) (t_min t_max : ℚ) : Option HitRecordQ :=
  if ¬ self.bounding_box.hit r t_max then none
  else scanObjects r t_min self.objects t_max none

/-- The scan instrumented with a counter of object queries: each
`hittable.hit` call counts one, exactly as the loop performs them. -/
def scanObjectsTraced (r : RayQ) (t_min : ℚ) :
    List ObjQ → ℚ → Option HitRecordQ → ℕ → Option HitRecordQ × ℕ
  | [], _, rec, n => (rec, n)
  | o :: rest, closest, rec, n =>
    match o.hitf r t_min closest with
    | some hrec => scanObjectsTraced r t_min rest hrec.t (some hrec) (n + 1)
    | none => scanObjectsTraced r t_min rest closest rec (n + 1)

/-- `Region::hit` with the query counter: on a bounding-box miss the
loop is never entered, so no object is queried. -/
def RegionQ.hitTraced (self : RegionQ) (r : RayQ) (t_min t_max : ℚ) :
    Option HitRecordQ × ℕ :=
  if ¬ self.bounding_box.hit r t_max then (none, 0)
  else scanObjectsTraced r t_min self.objects t_max none 0

/-- An object behaves like a geometric solid on ray `r` above `t_min`:
there is one potential hit `τ` (at parameter `≥ t_min`), and a query
with upper bound `u` reports it exactly when its `t` is within `u`.
`Sphere::hit` has this shape: its roots do not depend on the window,
and the accepted root is reported iff it lies inside the window. -/
def RegOn (o : ObjQ) (r : RayQ) (t_min : ℚ) (τ : Option HitRecordQ) : Prop :=
  (∀ hrec ∈ τ, t_min ≤ hrec.t) ∧
  ∀ u : ℚ, o.hitf r t_min u =
    τ.bind (fun hrec => if hrec.t ≤ u then some hrec else none)

theorem scanObjects_spec (sem : ObjQ → Option HitRecordQ) (r : RayQ) (t_min : ℚ) :
    ∀ (objs : List ObjQ) (closest : ℚ) (rec : Option HitRecordQ),
      (∀ o ∈ objs, RegOn o r t_min (sem o)) →
      (∃ hrec, hrec ∈ objs.filterMap sem ∧ hrec.t ≤ closest ∧
          (∀ h2 ∈ objs.filterMap sem, h2.t ≤ closest → hrec.t ≤ h2.t) ∧
          scanObjects r t_min objs closest rec = some hrec) ∨
        ((∀ h2 ∈ objs.filterMap sem, ¬ h2.t ≤ closest) ∧
          scanObjects r t_min objs closest rec = rec) := by
  intro objs
  induction objs with
  | nil =>
      intro closest rec _
      right
      exact ⟨by simp, rfl⟩
  | cons o rest ih =>
      intro closest rec hregs
      have hobj := hregs o (List.mem_cons_self o rest)
      have hrest : ∀ o2 ∈ rest, RegOn o2 r t_min (sem o2) :=
        fun o2 h2 => hregs o2 (List.mem_cons_of_mem o h2)
      rw [scanObjects, hobj.2 closest]
      cases hτ : sem o with
      | none =>
          simp only [Option.none_bind]
          rw [List.filterMap_cons_none hτ]
          exact ih closest rec hrest
      | some h0 =>
          simp only [Option.some_bind]
          rw [List.filterMap_cons_some hτ]
          by_cases hle : h0.t ≤ closest
          · rw [if_pos hle]
            rcases ih h0.t (some h0) hrest with
              ⟨hrec, hm, hle2, hmin, hs⟩ | ⟨hnone, hs⟩
            · left
              refine ⟨hrec, List.mem_cons_of_mem h0 hm, le_trans hle2 hle, ?_, hs⟩
              intro h2 hm2 hle3
              rcases List.mem_cons.mp hm2 with rfl | hm2
              · exact hle2
              · rcases le_total h2.t h0.t with hcase | hcase
                · exact hmin h2 hm2 hcase
                · exact le_trans hle2 hcase
            · left
              refine ⟨h0, List.mem_cons_self h0 _, hle, ?_, hs⟩
              intro h2 hm2 _
              rcases List.mem_cons.mp hm2 with rfl | hm2
              · exact le_refl _
              · exact le_of_not_le (hnone h2 hm2)
          · rw [if_neg hle]
            rcases ih closest rec hrest with
              ⟨hrec, hm, hle2, hmin, hs⟩ | ⟨hnone, hs⟩
            · left
              refine ⟨hrec, List.mem_cons_of_mem h0 hm, hle2, ?_, hs⟩
              intro h2 hm2 hle3
              rcases List.mem_cons.mp hm2 with rfl | hm2
              · exact absurd hle3 hle
              · exact hmin h2 hm2 hle3
            · right
              refine ⟨?_, hs⟩
              intro h2 hm2
              rcases List.mem_cons.mp hm2 with rfl | hm2
              · exact hle
              · exact hnone h2 hm2

theorem scanObjectsTraced_fst (r : RayQ) (t_min : ℚ) :
    ∀ (objs : List ObjQ) (closest : ℚ) (rec : Option HitRecordQ) (n : ℕ),
      (scanObjectsTraced r t_min objs closest rec n).1 =
        scanObjects r t_min objs closest rec := by
  intro objs
  induction objs with
  | nil => intro closest rec n; rfl
  | cons o rest ih =>
      intro closest rec n
      rw [scanObjectsTraced, scanObjects]
      cases o.hitf r t_min closest with
      | some hrec => exact ih hrec.t (some hrec) (n + 1)
      | none => exact ih closest rec (n + 1)

/-- C3: with the scene's objects behaving as geometric solids (`RegOn`)
with pairwise distinct hit parameters, `Region::hit` (1) returns `None`
without querying a single object when the bounding box is missed,
(2) otherwise returns exactly the candidate hit of minimal `t` within
`t_max` (so a farther hit never replaces a closer one), and (3) is
unchanged under any permutation of the object list. -/
theorem region_hit_closest_correct (sem : ObjQ → Option HitRecordQ)
    (reg : RegionQ) (r : RayQ) (t_min t_max : ℚ)
    (hreg : ∀ o ∈ reg.objects, RegOn o r t_min (sem o))
    (hnd : ((reg.objects.filterMap sem).map (fun hrec => hrec.t)).Nodup) :
    (¬ reg.bounding_box.hit r t_max → reg.hitTraced r t_min t_max = (none, 0)) ∧
    ((reg.hitTraced r t_min t_max).1 = reg.hit r t_min t_max) ∧
    (∀ hrec, reg.hit r t_min t_max = some hrec ↔
      (reg.bounding_box.hit r t_max ∧ hrec ∈ reg.objects.filterMap sem ∧
        hrec.t ≤ t_max ∧
        ∀ h2 ∈ reg.objects.filterMap sem, h2.t ≤ t_max → hrec.t ≤ h2.t)) ∧
    (∀ objs2 : List ObjQ, objs2.Perm reg.objects →
      RegionQ.hit ⟨objs2, reg.bounding_box⟩ r t_min t_max =
        reg.hit r t_min t_max) := by
  have hinj : ∀ a ∈ reg.objects.filterMap sem, ∀ b ∈ reg.objects.filterMap sem,
      a.t = b.t → a = b :=
    fun _ ha _ hb => List.inj_on_of_nodup_map hnd ha hb
  refine ⟨?_, ?_, ?_, ?_⟩
  · intro hmiss
    simp [RegionQ.hitTraced, hmiss]
  · by_cases hb : reg.bounding_box.hit r t_max
    · simp only [RegionQ.hitTraced, RegionQ.hit, hb, not_true, if_neg, ite_false]
      exact scanObjectsTraced_fst r t_min reg.objects t_max none 0
    · simp [RegionQ.hitTraced, RegionQ.hit, hb]
  · intro hrec
    by_cases hb : reg.bounding_box.hit r t_max
    · rw [RegionQ.hit, if_neg (not_not.mpr hb)]
      rcases scanObjects_spec sem r t_min reg.objects t_max none hreg with
        ⟨hstar, hm, hle, hmin, hs⟩ | ⟨hnone, hs⟩
      · rw [hs]
        constructor
        · intro heq
          cases Option.some.inj heq
          exact ⟨hb, hm, hle, hmin⟩
        · rintro ⟨-, hm2, hle2, hmin2⟩
          have h1 : hrec.t ≤ hstar.t := hmin2 hstar hm hle
          have h2 : hstar.t ≤ hrec.t := hmin hrec hm2 hle2
          rw [hinj hstar hm hrec hm2 (le_antisymm h2 h1)]
      · rw [hs]
        constructor
        · intro heq
          exact absurd heq (by simp)
        · rintro ⟨-, hm2, hle2, -⟩
          exact absurd hle2 (hnone hrec hm2)
    · rw [RegionQ.hit, if_pos hb]
      simp only [false_iff, (by simp : (none : Option HitRecordQ) ≠ some hrec)]
      rintro ⟨hb2, -⟩
      exact hb hb2
  · intro objs2 hp
    have hreg2 : ∀ o ∈ objs2, RegOn o r t_min (sem o) :=
      fun o ho => hreg o (hp.subset ho)
    have hmem : ∀ h2 : HitRecordQ,
        h2 ∈ objs2.filterMap sem ↔ h2 ∈ reg.objects.filterMap sem :=
      fun h2 => (hp.filterMap sem).mem_iff
    by_cases hb : reg.bounding_box.hit r t_max
    · rw [RegionQ.hit, RegionQ.hit, if_neg (not_not.mpr hb), if_neg (not_not.mpr hb)]
      rcases scanObjects_spec sem r t_min objs2 t_max none hreg2 with
        ⟨ha, hma, hlea, hmina, hsa⟩ | ⟨hnonea, hsa⟩ <;>
        rcases scanObjects_spec sem r t_min reg.objects t_max none hreg with
          ⟨hc, hmc, hlec, hminc, hsc⟩ | ⟨hnonec, hsc⟩
      · rw [hsa, hsc]
        have h1 : ha.t ≤ hc.t := hmina hc ((hmem hc).mpr hmc) hlec
        have h2 : hc.t ≤ ha.t := hminc ha ((hmem ha).mp hma) hlea
        rw [hinj ha ((hmem ha).mp hma) hc hmc (le_antisymm h1 h2)]
      · exact absurd hlea (hnonec ha ((hmem ha).mp hma))
      · exact absurd hlec (hnonea hc ((hmem hc).mpr hmc))
      · rw [hsa, hsc]
    · rw [RegionQ.hit, RegionQ.hit, if_pos hb, if_pos hb]

/-- Concrete instance for the C3 witness: one object hitting at `t = 5`
whenever the window allows it. -/
def c3Rec : HitRecordQ :=
  ⟨⟨0, 0, -5⟩, ⟨0, 0, 1⟩, 5, true⟩

def c3Obj : ObjQ :=
  ⟨fun _ _ u => if (5 : ℚ) ≤ u then some c3Rec else none⟩

/-- A second object hitting farther away, at `t = 7`. -/
def c3Rec2 : HitRecordQ :=
  ⟨⟨0, 0, -7⟩, ⟨0, 0, 1⟩, 7, true⟩

def c3Obj2 : ObjQ :=
  ⟨fun _ _ u => if (7 : ℚ) ≤ u then some c3Rec2 else none⟩

/-- The candidate-hit assignment for the two witness objects, read off
by querying each with a window wide enough to contain both hits. -/
def c3Sem : ObjQ → Option HitRecordQ := fun o => o.hitf (RayQ.mk' ⟨0, 0, 0⟩ ⟨0, 0, 0⟩) 0 1000

def c3Box : Aabb ℚ :=
  ⟨⟨-1, -1, -8⟩, ⟨1, 1, -4⟩⟩

theorem c3Sem_obj : c3Sem c3Obj = some c3Rec := by
  norm_num [c3Sem, c3Obj]

theorem c3Sem_obj2 : c3Sem c3Obj2 = some c3Rec2 := by
  norm_num [c3Sem, c3Obj2]

theorem c3RegOn (r : RayQ) : RegOn c3Obj r (1/1000) (c3Sem c3Obj) := by
  rw [c3Sem_obj]
  constructor
  · intro hrec hh
    rw [Option.mem_def, Option.some.injEq] at hh
    subst hh
    norm_num [c3Rec]
  · intro u
    rfl

theorem c3RegOn2 (r : RayQ) : RegOn c3Obj2 r (1/1000) (c3Sem c3Obj2) := by
  rw [c3Sem_obj2]
  constructor
  · intro hrec hh
    rw [Option.mem_def, Option.some.injEq] at hh
    subst hh
    norm_num [c3Rec2]
  · intro u
    rfl

/-- Witness for C3: scanning the two concrete objects in either order
returns the same (closer, `t = 5`) hit. -/
theorem region_hit_closest_correct_witness :
    RegionQ.hit ⟨[c3Obj2, c3Obj], c3Box⟩ (RayQ.mk' ⟨0, 0, 0⟩ ⟨0, 0, -1⟩) (1/1000) 100 =
      RegionQ.hit ⟨[c3Obj, c3Obj2], c3Box⟩ (RayQ.mk' ⟨0, 0, 0⟩ ⟨0, 0, -1⟩) (1/1000) 100 :=
  (region_hit_closest_correct c3Sem ⟨[c3Obj, c3Obj2], c3Box⟩
    (RayQ.mk' ⟨0, 0, 0⟩ ⟨0, 0, -1⟩) (1/1000) 100
    (by
      intro o ho
      rcases List.mem_cons.mp ho with rfl | ho2
      · exact c3RegOn _
      · rw [List.mem_singleton] at ho2
        subst ho2
        exact c3RegOn2 _)
    (by
      simp [c3Sem_obj, c3Sem_obj2, List.filterMap_cons, c3Rec, c3Rec2])).2.2.2
    [c3Obj2, c3Obj] (List.Perm.swap c3Obj c3Obj2 [])

/-! ### Pixel conversion and the output buffer (`renderer/core/mod.rs`;
used by C6 and C9) -/

/-- `clamp` from `renderer/core/mod.rs` (also duplicated in
`render_op.rs`): two early returns, else the input. -/
noncomputable def clamp (x lo hi : ℝ) : ℝ :=
  if x < lo then lo
  else if x > hi then hi
  else x

/-- `convert_pixel` from `renderer/core/mod.rs`:
`(clamp(f32::sqrt(channel), 0.0, 0.999) * 256.0) as u8` per channel.
The value before the cast lies in `[0, 255.744]`, so the `as u8`
truncation is exactly `Nat.floor`. -/
noncomputable def convert_pixel (pixel : Vec3 ℝ) : ℕ × ℕ × ℕ :=
  (⌊clamp (Real.sqrt pixel.x) 0 0.999 * 256⌋₊,
   ⌊clamp (Real.sqrt pixel.y) 0 0.999 * 256⌋₊,
   ⌊clamp (Real.sqrt pixel.z) 0 0.999 * 256⌋₊)

/-- The `write_pixel!` macro of `renderer/core/mod.rs` (and the three
collector writes of `render_threaded_naive`): the three bytes at
`location*3`, `location*3+1`, `location*3+2` become `r`, `g`, `b`. -/
def writePixel (out : Buffer) (location : ℕ) (rgb : ℕ × ℕ × ℕ) : Buffer :=
  fun i =>
    if i = location * 3 then rgb.1
    else if i = location * 3 + 1 then rgb.2.1
    else if i = location * 3 + 2 then rgb.2.2
    else out i

/-- A deterministic pixel operator `(x, y) ↦ Color`, the
`RenderPixelOp` of `cpurender.rs` with the (shared, read-only) context
and scene arguments fixed. -/
def PixelOp : Type := ℕ → ℕ → Vec3 ℝ

/-- Write a list of `(x, y, rgb)` messages into a buffer of row width
`w`, each at row-major location `y*w + x` — the collector loop's
`let location = (y * w) as usize + x as usize` writes. -/
def applyMsgs (w : ℕ) (msgs : List Msg) (buf : Buffer) : Buffer :=
  msgs.foldl (fun b m => writePixel b (m.2.1 * w + m.1) m.2.2) buf

/-- The pixel writes of `render_naive` in loop order: `y` outer over
`0..h`, `x` inner over `0..w` (the render entry point always passes the
full-image tile `start=(0,0)`, `end=(w,h)`), each write at location
`y*w + x`. -/
noncomputable def naiveMsgs (w h : ℕ) (op : PixelOp) : List Msg :=
  (List.range h).flatMap (fun y =>
    (List.range w).map (fun x => (x, y, convert_pixel (op x y))))

/-- The pixel writes of `render_threaded`: the buffer is split into
row bands of `w*3` bytes (`chunks_mut(w * 3).enumerate()`), band `i`
writing pixel `x` of row `i` at band offset `x*3`, i.e. global
location `i*w + x`. -/
noncomputable def threadedMsgs (w h : ℕ) (op : PixelOp) : List Msg :=
  (List.range h).flatMap (fun i =>
    (List.range w).map (fun x => (x, i, convert_pixel (op x i))))

/-- `let start_x = n * lenx` with `lenx = w / threads`, from
`render_threaded_naive`. -/
def colStart (threads w n : ℕ) : ℕ := n * (w / threads)

/-- `let end_x = if n == threads - 1 { w } else { (n + 1) * lenx }`:
the last thread absorbs the remainder. -/
def colEnd (threads w n : ℕ) : ℕ :=
  if n = threads - 1 then w else (n + 1) * (w / threads)

/-- The messages sent by the workers of `render_threaded_naive`:
thread `n` of `threads` covers columns `start_x .. end_x`, looping `x`
outer and `y` inner over `0..h` and sending
`(x, y, convert_pixel(op x y))`. -/
noncomputable def colMsgs (threads w h : ℕ) (op : PixelOp) : List Msg :=
  (List.range threads).flatMap (fun n =>
    (List.range (colEnd threads w n - colStart threads w n)).flatMap (fun dx =>
      (List.range h).map (fun y =>
        (colStart threads w n + dx, y,
          convert_pixel (op (colStart threads w n + dx) y)))))

theorem threadedMsgs_eq_naiveMsgs (w h : ℕ) (op : PixelOp) :
    threadedMsgs w h op = naiveMsgs w h op := rfl

/-- A message list that writes every pixel of a `w × h` image exactly
once with the converted operator color: image-wide coverage, only
in-range well-formed messages, and no location written twice. -/
def CompleteMsgs (w h : ℕ) (op : PixelOp) (msgs : List Msg) : Prop :=
  (∀ x, x < w → ∀ y, y < h → (x, y, convert_pixel (op x y)) ∈ msgs) ∧
  (∀ m ∈ msgs, m.1 < w ∧ m.2.1 < h ∧ m.2.2 = convert_pixel (op m.1 m.2.1)) ∧
  (msgs.map (fun m => m.2.1 * w + m.1)).Nodup

theorem writePixel_untouched (b : Buffer) (loc : ℕ) (rgb : ℕ × ℕ × ℕ) (i : ℕ)
    (h : i / 3 ≠ loc) : writePixel b loc rgb i = b i := by
  unfold writePixel
  rw [if_neg (by omega), if_neg (by omega), if_neg (by omega)]

theorem applyMsgs_untouched (w : ℕ) :
    ∀ (msgs : List Msg) (buf : Buffer) (i : ℕ),
      (∀ m ∈ msgs, m.2.1 * w + m.1 ≠ i / 3) →
      applyMsgs w msgs buf i = buf i := by
  intro msgs
  induction msgs with
  | nil => intro buf i _; rfl
  | cons m rest ih =>
      intro buf i hm
      rw [applyMsgs, List.foldl_cons]
      rw [show List.foldl (fun b m => writePixel b (m.2.1 * w + m.1) m.2.2)
          (writePixel buf (m.2.1 * w + m.1) m.2.2) rest =
          applyMsgs w rest (writePixel buf (m.2.1 * w + m.1) m.2.2) from rfl]
      rw [ih _ i (fun m2 hm2 => hm m2 (List.mem_cons_of_mem m hm2))]
      exact writePixel_untouched buf _ m.2.2 i
        (fun hc => hm m (List.mem_cons_self m rest) hc.symm)

theorem applyMsgs_writes (w : ℕ) (msgs : List Msg) (buf : Buffer) (m : Msg)
    (hm : m ∈ msgs)
    (hnd : (msgs.map (fun m2 => m2.2.1 * w + m2.1)).Nodup) :
    applyMsgs w msgs buf ((m.2.1 * w + m.1) * 3) = m.2.2.1 ∧
    applyMsgs w msgs buf ((m.2.1 * w + m.1) * 3 + 1) = m.2.2.2.1 ∧
    applyMsgs w msgs buf ((m.2.1 * w + m.1) * 3 + 2) = m.2.2.2.2 := by
  obtain ⟨l1, l2, rfl⟩ := List.append_of_mem hm
  have hsplit : ∀ b : Buffer,
      applyMsgs w (l1 ++ m :: l2) b =
        applyMsgs w l2 (writePixel (applyMsgs w l1 b) (m.2.1 * w + m.1) m.2.2) := by
    intro b
    rw [applyMsgs, List.foldl_append, List.foldl_cons]
    rfl
  have hnotin : (m.2.1 * w + m.1) ∉ l2.map (fun m2 => m2.2.1 * w + m2.1) := by
    rw [List.map_append, List.map_cons, List.nodup_append] at hnd
    exact (List.nodup_cons.mp hnd.2.1).1
  have huntouched : ∀ c : ℕ, c < 3 →
      applyMsgs w l2 (writePixel (applyMsgs w l1 buf) (m.2.1 * w + m.1) m.2.2)
          ((m.2.1 * w + m.1) * 3 + c) =
        writePixel (applyMsgs w l1 buf) (m.2.1 * w + m.1) m.2.2
          ((m.2.1 * w + m.1) * 3 + c) := by
    intro c hc
    apply applyMsgs_untouched
    intro m2 hm2 heq
    apply hnotin
    rw [show ((m.2.1 * w + m.1) * 3 + c) / 3 = m.2.1 * w + m.1 from by omega] at heq
    rw [← heq]
    exact List.mem_map_of_mem _ hm2
  have h0 := huntouched 0 (by omega)
  rw [Nat.add_zero] at h0
  refine ⟨?_, ?_, ?_⟩
  · rw [hsplit buf, h0, writePixel, if_pos rfl]
  · rw [hsplit buf, huntouched 1 (by omega), writePixel,
      if_neg (by omega), if_pos rfl]
  · rw [hsplit buf, huntouched 2 (by omega), writePixel,
      if_neg (by omega), if_neg (by omega), if_pos rfl]


theorem completeMsgs_perm (w h : ℕ) (op : PixelOp) {msgs msgs2 : List Msg}
    (hp : msgs.Perm msgs2) (hc : CompleteMsgs w h op msgs) :
    CompleteMsgs w h op msgs2 := by
  refine ⟨?_, ?_, ?_⟩
  · intro x hx y hy
    exact hp.subset (hc.1 x hx y hy)
  · intro m hm
    exact hc.2.1 m (hp.symm.subset hm)
  · exact ((hp.map (fun m => m.2.1 * w + m.1)).nodup_iff).mp hc.2.2

/-- Restate `applyMsgs_writes` with the message components spelled out. -/
theorem applyMsgs_writes_xy (w : ℕ) (msgs : List Msg) (buf : Buffer)
    (x y : ℕ) (rgb : ℕ × ℕ × ℕ) (hm : (x, y, rgb) ∈ msgs)
    (hnd : (msgs.map (fun m2 => m2.2.1 * w + m2.1)).Nodup) :
    applyMsgs w msgs buf ((y * w + x) * 3) = rgb.1 ∧
    applyMsgs w msgs buf ((y * w + x) * 3 + 1) = rgb.2.1 ∧
    applyMsgs w msgs buf ((y * w + x) * 3 + 2) = rgb.2.2 :=
  applyMsgs_writes w msgs buf (x, y, rgb) hm hnd

theorem range_rows_locs (w : ℕ) :
    ∀ h : ℕ, ((List.range h).flatMap (fun y => (List.range w).map (fun x => y * w + x)))
      = List.range (h * w) := by
  intro h
  induction h with
  | zero => simp
  | succ h ih =>
      rw [List.range_succ, List.flatMap_append, ih, Nat.succ_mul, List.range_add]
      congr 1
      simp [List.flatMap_singleton]

theorem naiveMsgs_locs (w h : ℕ) (op : PixelOp) :
    ((naiveMsgs w h op).map (fun m => m.2.1 * w + m.1)) = List.range (h * w) := by
  rw [naiveMsgs, List.map_flatMap, ← range_rows_locs w h]
  congr 1
  funext y
  rw [List.map_map]
  rfl

theorem naiveMsgs_complete (w h : ℕ) (op : PixelOp) :
    CompleteMsgs w h op (naiveMsgs w h op) := by
  refine ⟨?_, ?_, ?_⟩
  · intro x hx y hy
    rw [naiveMsgs, List.mem_flatMap]
    exact ⟨y, List.mem_range.mpr hy, List.mem_map.mpr ⟨x, List.mem_range.mpr hx, rfl⟩⟩
  · intro m hm
    rw [naiveMsgs, List.mem_flatMap] at hm
    obtain ⟨y, hy, hm2⟩ := hm
    obtain ⟨x, hx, rfl⟩ := List.mem_map.mp hm2
    exact ⟨List.mem_range.mp hx, List.mem_range.mp hy, rfl⟩
  · rw [naiveMsgs_locs]
    exact List.nodup_range (h * w)

theorem naiveMsgs_length (w h : ℕ) (op : PixelOp) :
    (naiveMsgs w h op).length = w * h := by
  have hlen := congrArg List.length (naiveMsgs_locs w h op)
  rw [List.length_map, List.length_range] at hlen
  rw [hlen, Nat.mul_comm]

theorem naiveMsgs_nodup (w h : ℕ) (op : PixelOp) : (naiveMsgs w h op).Nodup :=
  (naiveMsgs_complete w h op).2.2.of_map _

theorem flatMap_length_eq {α β : Type} (L : List α) (f : α → List β) (g : α → ℕ)
    (hf : ∀ a ∈ L, (f a).length = g a) : (L.flatMap f).length = (L.map g).sum := by
  induction L with
  | nil => rfl
  | cons a l ih =>
      rw [List.flatMap_cons, List.length_append, List.map_cons, List.sum_cons,
        hf a (List.mem_cons_self a l),
        ih (fun b hb => hf b (List.mem_cons_of_mem a hb))]

theorem sum_map_mul (L : List ℕ) (f : ℕ → ℕ) (r : ℕ) :
    (L.map (fun n => f n * r)).sum = (L.map f).sum * r := by
  induction L with
  | nil => simp
  | cons a l ih => simp [ih, Nat.add_mul]

theorem sum_map_const {α : Type} (L : List α) (c : ℕ) :
    (L.map (fun _ => c)).sum = L.length * c := by
  induction L with
  | nil => simp
  | cons a l ih => simp [ih, Nat.succ_mul, Nat.add_comm]

theorem colEnd_le (threads w n : ℕ) (hn : n < threads) :
    colEnd threads w n ≤ w := by
  rw [colEnd]
  split_ifs with hc
  · exact le_refl w
  · calc (n + 1) * (w / threads) ≤ threads * (w / threads) :=
        Nat.mul_le_mul_right _ (by omega)
      _ = (w / threads) * threads := Nat.mul_comm _ _
      _ ≤ w := Nat.div_mul_le_self w threads

theorem colMsgs_wellformed (threads w h : ℕ) (op : PixelOp) :
    ∀ m ∈ colMsgs threads w h op, m.1 < w ∧ m.2.1 < h ∧
      m.2.2 = convert_pixel (op m.1 m.2.1) := by
  intro m hm
  rw [colMsgs, List.mem_flatMap] at hm
  obtain ⟨n, hn, hm2⟩ := hm
  rw [List.mem_flatMap] at hm2
  obtain ⟨dx, hdx, hm3⟩ := hm2
  obtain ⟨y, hy, rfl⟩ := List.mem_map.mp hm3
  rw [List.mem_range] at hn hdx hy
  have hend := colEnd_le threads w n hn
  exact ⟨by omega, hy, rfl⟩

theorem cover_partition (threads w x : ℕ) (ht1 : 0 < threads) (ht2 : threads ≤ w)
    (hx : x < w) :
    ∃ n, n < threads ∧ colStart threads w n ≤ x ∧ x < colEnd threads w n := by
  have hl : 0 < w / threads := Nat.div_pos ht2 ht1
  have hda := Nat.div_add_mod x (w / threads)
  have hdm := Nat.mod_lt x hl
  by_cases hcase : x / (w / threads) < threads - 1
  · refine ⟨x / (w / threads), by omega, ?_, ?_⟩
    · rw [colStart]
      exact Nat.div_mul_le_self x (w / threads)
    · rw [colEnd, if_neg (by omega), Nat.succ_mul]
      have hbridge : (w / threads) * (x / (w / threads)) =
          x / (w / threads) * (w / threads) := Nat.mul_comm _ _
      omega
  · refine ⟨threads - 1, by omega, ?_, ?_⟩
    · rw [colStart]
      have h1 : (threads - 1) * (w / threads) ≤ x / (w / threads) * (w / threads) :=
        Nat.mul_le_mul_right _ (by omega)
      have h2 : x / (w / threads) * (w / threads) ≤ x :=
        Nat.div_mul_le_self x (w / threads)
      omega
    · rw [colEnd, if_pos rfl]
      exact hx

theorem colMsgs_covers (threads w h : ℕ) (op : PixelOp)
    (ht1 : 0 < threads) (ht2 : threads ≤ w) :
    ∀ x, x < w → ∀ y, y < h →
      (x, y, convert_pixel (op x y)) ∈ colMsgs threads w h op := by
  intro x hx y hy
  obtain ⟨n, hn, hs, he⟩ := cover_partition threads w x ht1 ht2 hx
  rw [colMsgs, List.mem_flatMap]
  refine ⟨n, List.mem_range.mpr hn, ?_⟩
  rw [List.mem_flatMap]
  refine ⟨x - colStart threads w n, List.mem_range.mpr (by omega), ?_⟩
  rw [List.mem_map]
  refine ⟨y, List.mem_range.mpr hy, ?_⟩
  rw [show colStart threads w n + (x - colStart threads w n) = x from by omega]

theorem colSizes_sum (threads w : ℕ) (ht1 : 0 < threads) :
    ((List.range threads).map
      (fun n => colEnd threads w n - colStart threads w n)).sum = w := by
  obtain ⟨T, rfl⟩ : ∃ T, threads = T + 1 := ⟨threads - 1, by omega⟩
  have hlw : T * (w / (T + 1)) ≤ w := by
    calc T * (w / (T + 1)) ≤ (T + 1) * (w / (T + 1)) :=
        Nat.mul_le_mul_right _ (by omega)
      _ = (w / (T + 1)) * (T + 1) := Nat.mul_comm _ _
      _ ≤ w := Nat.div_mul_le_self w (T + 1)
  rw [List.range_succ, List.map_append, List.sum_append]
  have hmap : (List.range T).map (fun n => colEnd (T + 1) w n - colStart (T + 1) w n)
      = (List.range T).map (fun _ => w / (T + 1)) := by
    apply List.map_congr_left
    intro n hn
    rw [List.mem_range] at hn
    rw [colEnd, colStart, if_neg (by omega), Nat.succ_mul]
    exact Nat.add_sub_cancel_left _ _
  rw [hmap, sum_map_const, List.length_range]
  simp only [List.map_cons, List.map_nil, List.sum_cons, List.sum_nil]
  rw [colEnd, colStart, if_pos (by omega)]
  omega

theorem colMsgs_length (threads w h : ℕ) (op : PixelOp) (ht1 : 0 < threads) :
    (colMsgs threads w h op).length = w * h := by
  have hinner : ∀ n : ℕ,
      ((List.range (colEnd threads w n - colStart threads w n)).flatMap
        (fun dx => (List.range h).map (fun y =>
          (colStart threads w n + dx, y,
            convert_pixel (op (colStart threads w n + dx) y))))).length =
      (colEnd threads w n - colStart threads w n) * h := by
    intro n
    rw [flatMap_length_eq _ _ (fun _ => h)
      (fun dx _ => by rw [List.length_map, List.length_range])]
    rw [sum_map_const, List.length_range]
  rw [colMsgs, flatMap_length_eq _ _
    (fun n => (colEnd threads w n - colStart threads w n) * h)
    (fun n _ => hinner n)]
  rw [sum_map_mul, colSizes_sum threads w ht1]

theorem colMsgs_perm_naive (threads w h : ℕ) (op : PixelOp)
    (ht1 : 0 < threads) (ht2 : threads ≤ w) :
    (naiveMsgs w h op).Perm (colMsgs threads w h op) := by
  have hsub : naiveMsgs w h op ⊆ colMsgs threads w h op := by
    intro m hm
    have hwf := (naiveMsgs_complete w h op).2.1 m hm
    have hmem := colMsgs_covers threads w h op ht1 ht2 m.1 hwf.1 m.2.1 hwf.2.1
    rw [← hwf.2.2] at hmem
    exact hmem
  have hsp : (naiveMsgs w h op).Subperm (colMsgs threads w h op) :=
    (naiveMsgs_nodup w h op).subperm hsub
  exact hsp.perm_of_length_le
    (by rw [colMsgs_length threads w h op ht1, naiveMsgs_length])

theorem colMsgs_complete (threads w h : ℕ) (op : PixelOp)
    (ht1 : 0 < threads) (ht2 : threads ≤ w) :
    CompleteMsgs w h op (colMsgs threads w h op) :=
  completeMsgs_perm w h op (colMsgs_perm_naive threads w h op ht1 ht2)
    (naiveMsgs_complete w h op)

theorem applyMsgs_eq_of_complete (w h : ℕ) (op : PixelOp)
    {msgs1 msgs2 : List Msg}
    (h1 : CompleteMsgs w h op msgs1) (h2 : CompleteMsgs w h op msgs2)
    (buf : Buffer) : ∀ i, applyMsgs w msgs1 buf i = applyMsgs w msgs2 buf i := by
  intro i
  by_cases htouched : i / 3 < w * h
  · have hwpos : 0 < w := by
      rcases Nat.eq_zero_or_pos w with hw | hw
      · rw [hw, Nat.zero_mul] at htouched
        omega
      · exact hw
    have hx : (i / 3) % w < w := Nat.mod_lt _ hwpos
    have hy : (i / 3) / w < h := Nat.div_lt_of_lt_mul htouched
    have hloc : ((i / 3) / w) * w + (i / 3) % w = i / 3 := by
      have hda := Nat.div_add_mod (i / 3) w
      have hb : w * ((i / 3) / w) = ((i / 3) / w) * w := Nat.mul_comm _ _
      omega
    have hm1 := applyMsgs_writes_xy w msgs1 buf ((i / 3) % w) ((i / 3) / w)
      (convert_pixel (op ((i / 3) % w) ((i / 3) / w))) (h1.1 _ hx _ hy) h1.2.2
    have hm2 := applyMsgs_writes_xy w msgs2 buf ((i / 3) % w) ((i / 3) / w)
      (convert_pixel (op ((i / 3) % w) ((i / 3) / w))) (h2.1 _ hx _ hy) h2.2.2
    rw [hloc] at hm1 hm2
    have hc : i % 3 = 0 ∨ i % 3 = 1 ∨ i % 3 = 2 := by omega
    rcases hc with hc | hc | hc
    · have e1 : applyMsgs w msgs1 buf i = (convert_pixel (op ((i / 3) % w) ((i / 3) / w))).1 := by
        conv_lhs => rw [show i = i / 3 * 3 from by omega]
        exact hm1.1
      have e2 : applyMsgs w msgs2 buf i = (convert_pixel (op ((i / 3) % w) ((i / 3) / w))).1 := by
        conv_lhs => rw [show i = i / 3 * 3 from by omega]
        exact hm2.1
      rw [e1, e2]
    · have e1 : applyMsgs w msgs1 buf i = (convert_pixel (op ((i / 3) % w) ((i / 3) / w))).2.1 := by
        conv_lhs => rw [show i = i / 3 * 3 + 1 from by omega]
        exact hm1.2.1
      have e2 : applyMsgs w msgs2 buf i = (convert_pixel (op ((i / 3) % w) ((i / 3) / w))).2.1 := by
        conv_lhs => rw [show i = i / 3 * 3 + 1 from by omega]
        exact hm2.2.1
      rw [e1, e2]
    · have e1 : applyMsgs w msgs1 buf i = (convert_pixel (op ((i / 3) % w) ((i / 3) / w))).2.2 := by
        conv_lhs => rw [show i = i / 3 * 3 + 2 from by omega]
        exact hm1.2.2
      have e2 : applyMsgs w msgs2 buf i = (convert_pixel (op ((i / 3) % w) ((i / 3) / w))).2.2 := by
        conv_lhs => rw [show i = i / 3 * 3 + 2 from by omega]
        exact hm2.2.2
      rw [e1, e2]
  · have huntouched : ∀ msgs : List Msg, CompleteMsgs w h op msgs →
        applyMsgs w msgs buf i = buf i := by
      intro msgs hc
      apply applyMsgs_untouched
      intro m hm _
      have hwf := hc.2.1 m hm
      have hlt : m.2.1 * w + m.1 < w * h := by
        calc m.2.1 * w + m.1 < m.2.1 * w + w := by omega
          _ = (m.2.1 + 1) * w := (Nat.succ_mul m.2.1 w).symm
          _ ≤ h * w := Nat.mul_le_mul_right _ (by omega)
          _ = w * h := Nat.mul_comm _ _
      omega
    rw [huntouched msgs1 h1, huntouched msgs2 h2]

/-- C6: with a deterministic pixel operator, the single-threaded
`render_naive`, the row-banded `render_threaded` (its bands landing in
any order), and the column-banded `render_threaded_naive` (its channel
messages collected in any order) produce byte-identical buffers, and
every pixel `(x, y)` is written exactly once, at row-major byte offset
`3*(y*w + x)`, with the `convert_pixel` bytes of `op x y`. -/
theorem render_strategies_byte_identical (w h threads : ℕ) (op : PixelOp)
    (ht1 : 0 < threads) (ht2 : threads ≤ w)
    (msgsT msgsC : List Msg)
    (hpT : msgsT.Perm (threadedMsgs w h op))
    (hpC : msgsC.Perm (colMsgs threads w h op))
    (buf : Buffer) :
    (∀ i, applyMsgs w (naiveMsgs w h op) buf i = applyMsgs w msgsT buf i) ∧
    (∀ i, applyMsgs w (naiveMsgs w h op) buf i = applyMsgs w msgsC buf i) ∧
    (∀ x, x < w → ∀ y, y < h →
      applyMsgs w (naiveMsgs w h op) buf ((y * w + x) * 3) =
        (convert_pixel (op x y)).1 ∧
      applyMsgs w (naiveMsgs w h op) buf ((y * w + x) * 3 + 1) =
        (convert_pixel (op x y)).2.1 ∧
      applyMsgs w (naiveMsgs w h op) buf ((y * w + x) * 3 + 2) =
        (convert_pixel (op x y)).2.2) := by
  have hcN := naiveMsgs_complete w h op
  have hcT : CompleteMsgs w h op msgsT := by
    rw [threadedMsgs_eq_naiveMsgs] at hpT
    exact completeMsgs_perm w h op hpT.symm hcN
  have hcC : CompleteMsgs w h op msgsC :=
    completeMsgs_perm w h op hpC.symm
      (colMsgs_complete threads w h op ht1 ht2)
  refine ⟨applyMsgs_eq_of_complete w h op hcN hcT buf,
    applyMsgs_eq_of_complete w h op hcN hcC buf, ?_⟩
  intro x hx y hy
  exact applyMsgs_writes_xy w (naiveMsgs w h op) buf x y
    (convert_pixel (op x y)) (hcN.1 x hx y hy) hcN.2.2

/-- Witness for C6: a 2×2 image, one worker thread, the channel
messages arriving in reversed order, over the constant black pixel
operator and the zero buffer. -/
theorem render_strategies_byte_identical_witness :
    applyMsgs 2 (naiveMsgs 2 2 (fun _ _ => ⟨0, 0, 0⟩)) bufZero 5 =
      applyMsgs 2 ((colMsgs 1 2 2 (fun _ _ => ⟨0, 0, 0⟩)).reverse) bufZero 5 :=
  (render_strategies_byte_identical 2 2 1 (fun _ _ => ⟨0, 0, 0⟩)
    (by omega) (by omega)
    (threadedMsgs 2 2 (fun _ _ => ⟨0, 0, 0⟩))
    ((colMsgs 1 2 2 (fun _ _ => ⟨0, 0, 0⟩)).reverse)
    (List.Perm.refl _) (List.reverse_perm _) bufZero).2.1 5

/-! ### The output-conversion contract (`renderer/core/mod.rs`, C9) -/

/-- The spec's output formula, stated in its own words: "each channel is
gamma-corrected by `sqrt`, clamped to `[0, 0.999]`, then scaled by `256`
and truncated to an 8-bit integer". -/
noncomputable def specChannelByte (c : ℝ) : ℕ :=
  ⌊clamp (Real.sqrt c) 0 0.999 * 256⌋₊

/-- The deterministic test pixel operator of the `cpurender.rs` tests:
`Color::new(0.013 * x, 0.017 * y, 0.21)`. -/
noncomputable def render_test_pixel (x y : ℕ) : Vec3 ℝ :=
  ⟨0.013 * (x : ℝ), 0.017 * (y : ℝ), 0.21⟩

theorem sqrt_13em3_lt : Real.sqrt 0.013 < 30 / 256 := by
  rw [show (30 : ℝ) / 256 = Real.sqrt ((30 / 256) ^ 2) from
    (Real.sqrt_sq (by norm_num)).symm]
  exact Real.sqrt_lt_sqrt (by norm_num) (by norm_num)

theorem sqrt_13em3_ge : (29 : ℝ) / 256 ≤ Real.sqrt 0.013 := by
  rw [show (29 : ℝ) / 256 = Real.sqrt ((29 / 256) ^ 2) from
    (Real.sqrt_sq (by norm_num)).symm]
  exact Real.sqrt_le_sqrt (by norm_num)

/-- C9: `convert_pixel` computes, per channel, exactly the byte the
spec's formula `floor(clamp(sqrt(channel), 0, 0.999) * 256)` names; on
the test pixel operator the channel-0 byte is that formula at
`0.013*x`, concretely `29` at `x = 1` and `0` at `x = 0`. -/
theorem convert_pixel_contract :
    (∀ p : Vec3 ℝ, convert_pixel p =
      (specChannelByte p.x, specChannelByte p.y, specChannelByte p.z)) ∧
    (∀ x y : ℕ, (convert_pixel (render_test_pixel x y)).1 =
      ⌊clamp (Real.sqrt (0.013 * (x : ℝ))) 0 0.999 * 256⌋₊) ∧
    (convert_pixel (render_test_pixel 1 0)).1 = 29 ∧
    (convert_pixel (render_test_pixel 0 0)).1 = 0 := by
  refine ⟨fun p => rfl, fun x y => rfl, ?_, ?_⟩
  · show ⌊clamp (Real.sqrt (0.013 * ((1 : ℕ) : ℝ))) 0 0.999 * 256⌋₊ = 29
    rw [show (0.013 * ((1 : ℕ) : ℝ)) = 0.013 from by norm_num]
    have h1 := sqrt_13em3_lt
    have h2 := sqrt_13em3_ge
    have hcl : clamp (Real.sqrt 0.013) 0 0.999 = Real.sqrt 0.013 := by
      rw [clamp, if_neg (not_lt.mpr (Real.sqrt_nonneg _)),
        if_neg (by intro hgt; nlinarith)]
    rw [hcl]
    rw [Nat.floor_eq_iff (by positivity)]
    constructor
    · nlinarith
    · push_cast
      nlinarith
  · show ⌊clamp (Real.sqrt (0.013 * ((0 : ℕ) : ℝ))) 0 0.999 * 256⌋₊ = 0
    rw [show (0.013 * ((0 : ℕ) : ℝ)) = 0 from by norm_num, Real.sqrt_zero]
    rw [clamp, if_neg (by norm_num), if_neg (by norm_num)]
    norm_num

/-! ### `random_in_unit_sphere` (`renderer/core/vector.rs`, C10)

The two RNG draws are explicit inputs: `point` is the
`Vec3::random_range(-1.0, 1.0)` draw and `d` the
`gen_range(0.0..(1.0 / mag))` draw. -/

/-- `random_in_unit_sphere` from `renderer/core/vector.rs`: draw
`point`, compute `mag = point.length()`, draw `d` in `[0, 1/mag)`, and
return `point /= d`.  (The function's own doc comment promises a vector
on the surface of the unit sphere.) -/
noncomputable def random_in_unit_sphere (point : Vec3 ℝ) (d : ℝ) : Vec3 ℝ :=
  point.divScalar d

/-- C10: the draws `point = (0.6, 0.8, 0)` (all components in
`[-1, 1)`, `mag = 1`) and `d = 0.5` (in `[0, 1/mag)`) are admissible,
yet the returned vector is `(1.2, 1.6, 0)` of length `2`, not a unit
vector: dividing by the fresh uniform draw `d` instead of by `mag` does
not normalize. -/
theorem random_in_unit_sphere_not_unit_length :
    ((-1 : ℝ) ≤ 0.6 ∧ (0.6 : ℝ) < 1 ∧ (-1 : ℝ) ≤ 0.8 ∧ (0.8 : ℝ) < 1 ∧
      (-1 : ℝ) ≤ 0 ∧ (0 : ℝ) < 1) ∧
    (Vec3.mk (0.6 : ℝ) 0.8 0).length = 1 ∧
    ((0 : ℝ) ≤ 0.5 ∧ (0.5 : ℝ) < 1 / (Vec3.mk (0.6 : ℝ) 0.8 0).length) ∧
    (random_in_unit_sphere ⟨0.6, 0.8, 0⟩ 0.5).length = 2 ∧
    (2 : ℝ) ≠ 1 := by
  have hlen1 : (Vec3.mk (0.6 : ℝ) 0.8 0).length = 1 := by
    rw [Vec3.length, Vec3.length_squared]
    rw [show ((0.6 : ℝ) * 0.6 + 0.8 * 0.8 + 0 * 0) = 1 from by norm_num]
    exact Real.sqrt_one
  refine ⟨by norm_num, hlen1, ⟨by norm_num, ?_⟩, ?_, by norm_num⟩
  · rw [hlen1]
    norm_num
  · rw [random_in_unit_sphere, Vec3.divScalar, Vec3.length, Vec3.length_squared]
    simp only
    rw [show ((0.6 : ℝ) / 0.5 * (0.6 / 0.5) + 0.8 / 0.5 * (0.8 / 0.5) +
      0 / 0.5 * (0 / 0.5)) = 2 ^ 2 from by norm_num]
    exact Real.sqrt_sq (by norm_num)

/-! ### `Sphere::hit` with a zero-length direction
(`renderer/scene/objects/sphere.rs`, C7)

`f32` values are modelled as `Option ℝ` where they can be NaN: `none`
is NaN.  The only operation in `Sphere::hit` that can create a NaN from
finite inputs is the division by `a`: with a zero-length direction,
`a = |dir|² = 0` and the numerators `-half_b ∓ sqrtd` are also `0`
(since `half_b = dot(oc, 0) = 0` and `discriminant = 0`), so the IEEE
result is `0.0 / 0.0 = NaN`, modelled by `none`.  An IEEE comparison
with NaN as an operand is false, which the comparison helpers encode. -/

/-- A ray over the reals (`orig`, `dir`), `renderer/core/ray.rs`. -/
structure RayR where
  orig : Vec3 ℝ
  dir : Vec3 ℝ

/-- `Ray::at`. -/
noncomputable def RayR.at (r : RayR) (t : ℝ) : Vec3 ℝ :=
  r.orig + t • r.dir

/-- `f32` division as used for the roots in `Sphere::hit`: NaN
(`none`) when the denominator is zero — faithful there because the
numerator is provably zero whenever `a` is. -/
noncomputable def fdivSphere (n d : ℝ) : Option ℝ :=
  if d = 0 then none else some (n / d)

/-- `root < bound` with a possibly-NaN `root`: false for NaN. -/
def fLtReal (root : Option ℝ) (bound : ℝ) : Prop :=
  match root with
  | none => False
  | some v => v < bound

/-- `bound < root` with a possibly-NaN `root`: false for NaN. -/
def realLtF (bound : ℝ) (root : Option ℝ) : Prop :=
  match root with
  | none => False
  | some v => bound < v

/-- `Sphere` from `renderer/scene/objects/sphere.rs` (the material is
irrelevant to the root computation C7 is about). -/
structure SphereR where
  center : Vec3 ℝ
  radius : ℝ

open Classical in
/-- `Sphere::hit` from `renderer/scene/objects/sphere.rs`, restricted
to the accepted root: `some root?` is a returned `HitRecord` whose `t`
field is `root?` (`none` = NaN); the outer `none` is a miss.  The other
record fields are all computed from the accepted root. -/
noncomputable def Sphere.hit (s : SphereR) (r : RayR) (t_min t_max : ℝ) :
    Option (Option ℝ) :=
  let oc := r.orig - s.center
  let a := r.dir.length_squared
  let half_b := dot oc r.dir
  let c := oc.length_squared - s.radius * s.radius
  let discriminant := half_b * half_b - a * c
  if discriminant < 0 then none
  else
    let sqrtd := Real.sqrt discriminant
    let root := fdivSphere (-half_b - sqrtd) a
    if fLtReal root t_min ∨ realLtF t_max root then
      let root2 := fdivSphere (-half_b + sqrtd) a
      if fLtReal root2 t_min ∨ realLtF t_max root2 then none
      else some root2
    else some root

/-- C7: for every sphere, window, and ray whose direction is the zero
vector (`a = 0`), `Sphere::hit` does divide by zero — the root becomes
NaN (`0.0/0.0`), both range checks on a NaN root are false, and the
function returns a *hit* whose `t` is NaN, not the miss the claim
requires. -/
theorem sphere_hit_zero_direction_nan (s : SphereR) (r : RayR) (t_min t_max : ℝ)
    (hdir : r.dir = ⟨0, 0, 0⟩) :
    Sphere.hit s r t_min t_max = some none := by
  rw [Sphere.hit]
  have ha : r.dir.length_squared = 0 := by
    rw [hdir, Vec3.length_squared]
    norm_num
  have hhb : dot (r.orig - s.center) r.dir = 0 := by
    rw [hdir, dot]
    norm_num
  rw [ha, hhb]
  rw [show (0 : ℝ) * 0 - 0 * ((r.orig - s.center).length_squared -
    s.radius * s.radius) = 0 from by ring]
  rw [if_neg (by norm_num)]
  norm_num [Real.sqrt_zero, fdivSphere, fLtReal, realLtF]

/-- The sphere and degenerate ray of the repository's own test scene
shape: center `(0,0,-10)`, radius `5`, ray from the origin with the
zero direction, the integrator's window `[0.001, 1000]`. -/
def c7Sphere : SphereR := ⟨⟨0, 0, -10⟩, 5⟩

def c7Ray : RayR := ⟨⟨0, 0, 0⟩, ⟨0, 0, 0⟩⟩

/-- Witness for C7's theorem: the concrete degenerate ray yields a
returned hit with NaN `t`. -/
theorem sphere_hit_zero_direction_nan_witness :
    Sphere.hit c7Sphere c7Ray (1/1000) 1000 = some none :=
  sphere_hit_zero_direction_nan c7Sphere c7Ray (1/1000) 1000 rfl

/-! ### Materials and the path integrator
(`renderer/scene/materials/mod.rs`, `renderer/execute/render_op.rs`,
`renderer/scene/world.rs`; C1)

Randomness is injected: the `random_in_unit_sphere()` value drawn at
bounce `n` of the integrator is `rng n`, and `Material::scatter`
receives the `random_unit_vector()` and `gen_range(0.0..1.0)` draws it
makes as arguments. -/

/-- `color::BLACK`. -/
def BLACK : Vec3 ℝ := ⟨0, 0, 0⟩

/-- `color::WHITE`. -/
def WHITE : Vec3 ℝ := ⟨1, 1, 1⟩

/-- `color::lerp`: `(1.0 - t) * from + t * to`. -/
noncomputable def lerp (cfrom cto : Vec3 ℝ) (t : ℝ) : Vec3 ℝ :=
  (1 - t) • cfrom + t • cto

/-- `vector::reflect`.  Modelled from the spec: the `Vec3` reflection
helper (`v - 2*dot(v,n)*n`) is used but not defined in the snapshot. -/
noncomputable def reflect (v n : Vec3 ℝ) : Vec3 ℝ :=
  v - (2 * dot v n) • n

/-- `vector::refract`.  Modelled from the spec: "refract via Snell's
law", in the standard split into the perpendicular and parallel
components. -/
noncomputable def refract (uv n : Vec3 ℝ) (etai_over_etat : ℝ) : Vec3 ℝ :=
  let cos_theta := min (dot (-uv) n) 1
  let r_out_perp := etai_over_etat • (uv + cos_theta • n)
  let r_out_parallel := (-(Real.sqrt |1 - r_out_perp.length_squared|)) • n
  r_out_perp + r_out_parallel

/-- `Vec3::near_zero`.  Modelled from the spec: "numerically near
zero", each component below the customary `1e-8` threshold. -/
def near_zero (v : Vec3 ℝ) : Prop :=
  |v.x| < 1e-8 ∧ |v.y| < 1e-8 ∧ |v.z| < 1e-8

/-- `reflectance` from `renderer/scene/materials/mod.rs` (Schlick). -/
noncomputable def reflectance (cos ref_idx : ℝ) : ℝ :=
  let r0 := (1 - ref_idx) / (1 + ref_idx)
  let r0 := r0 * r0
  r0 + (1 - r0) * (1 - cos) ^ 5

/-- `Material` from `renderer/scene/materials/mod.rs`: the closed enum
`Lambert { albedo } | Metal { albedo, fuzz } | Dielectric { ior }`. -/
inductive Material where
  | Lambert (albedo : Vec3 ℝ)
  | Metal (albedo : Vec3 ℝ) (fuzz : ℝ)
  | Dielectric (ior : ℝ)

/-- `HitRecord` as `Material::scatter` consumes it and
`Sphere::hit` (objects snapshot) produces it: point, normal, `t`,
`front_face`, and the material reference. -/
structure HitRecordR where
  p : Vec3 ℝ
  normal : Vec3 ℝ
  t : ℝ
  front_face : Bool
  material : Material

open Classical in
/-- `Material::scatter` from `renderer/scene/materials/mod.rs`.
`randUnit` is the `random_unit_vector()` draw and `randUniform` the
dielectric's `gen_range(0.0..1.0)` draw. -/
noncomputable def Material.scatter (m : Material) (r_in : RayR) (rec : HitRecordR)
    (randUnit : Vec3 ℝ) (randUniform : ℝ) : Option (RayR × Vec3 ℝ) :=
  match m with
  | .Lambert albedo =>
      let scatter_dir := rec.normal + randUnit
      let scatter_dir := if near_zero scatter_dir then rec.normal else scatter_dir
      some (⟨rec.p, scatter_dir⟩, albedo)
  | .Metal albedo fuzz =>
      let reflected := reflect r_in.dir rec.normal
      let scatter_ray : RayR := ⟨rec.p, reflected + fuzz • randUnit⟩
      if dot scatter_ray.dir rec.normal > 0 then some (scatter_ray, albedo)
      else none
  | .Dielectric ior =>
      let ref_rat := if rec.front_face then 1 / ior else ior
      let unit_dir := unit_vector r_in.dir
      let cos_theta := cmin (dot (-unit_dir) rec.normal) 1
      let sin_theta := Real.sqrt (1 - cos_theta * cos_theta)
      let dir := if ref_rat * sin_theta > 1 ∨ reflectance cos_theta ref_rat > randUniform
        then reflect unit_dir rec.normal
        else refract unit_dir rec.normal ref_rat
      some (⟨rec.p, dir⟩, WHITE)

/-- A `Region` as `ray_color_it` consumes it: the nearest-hit query at
the integrator's fixed window (`world.hit(ray, 0.001, INFINITY)`) and
the configured background color. -/
structure RegionR where
  hitf : RayR → Option HitRecordR
  background : Vec3 ℝ

/-- `Region::background_color` from `world.rs`: sky gradient
`lerp(WHITE, background, 0.5*(unit(dir).y + 1))`. -/
noncomputable def RegionR.background_color (self : RegionR) (r : RayR) : Vec3 ℝ :=
  let unit_direction := unit_vector r.dir
  let t := 0.5 * (unit_direction.y + 1)
  lerp WHITE self.background t

/-- The loop of `ray_color_it` from `render_op.rs`: `fuel` is the
remaining iterations (`max_depth - n`) and `n` the current iteration
index.  A miss at iteration `n` returns `0.5^n * background_color`;
running out of iterations leaves the color `BLACK`; a hit continues
with `target = rec.p + rec.normal + random_in_unit_sphere()` and the
ray `(rec.p, target - rec.p)`.  No material is ever consulted. -/
noncomputable def ray_color_it_aux (world : RegionR) (rng : ℕ → Vec3 ℝ) :
    RayR → ℕ → ℕ → Vec3 ℝ
  | _, 0, _ => BLACK
  | curr, fuel + 1, n =>
    match world.hitf curr with
    | none => (0.5 : ℝ) ^ n • world.background_color curr
    | some rec =>
        let target := rec.p + rec.normal + rng n
        ray_color_it_aux world rng ⟨rec.p, target - rec.p⟩ fuel (n + 1)

/-- `ray_color_it(r, world, max_depth)` from `render_op.rs`. -/
noncomputable def ray_color_it (r : RayR) (world : RegionR) (max_depth : ℕ)
    (rng : ℕ → Vec3 ℝ) : Vec3 ℝ :=
  ray_color_it_aux world rng r max_depth 0

theorem smul_smul_vec (a b : ℝ) (v : Vec3 ℝ) : a • b • v = (a * b) • v := by
  simp [Vec3.smul_def, mul_assoc]

theorem ray_color_it_aux_shift (world : RegionR) (rng : ℕ → Vec3 ℝ) :
    ∀ (fuel : ℕ) (r : RayR) (n : ℕ),
      ray_color_it_aux world rng r fuel (n + 1) =
        (0.5 : ℝ) • ray_color_it_aux world (fun k => rng (k + 1)) r fuel n := by
  intro fuel
  induction fuel with
  | zero =>
      intro r n
      simp [ray_color_it_aux, BLACK, Vec3.smul_def]
  | succ fuel ih =>
      intro r n
      rw [ray_color_it_aux, ray_color_it_aux]
      cases world.hitf r with
      | none =>
          simp only
          rw [smul_smul_vec, pow_succ, mul_comm ((0.5 : ℝ) ^ n) 0.5]
      | some rec =>
          simp only
          exact ih _ (n + 1)

/-- C1 (amended): when the scene reports a hit and depth remains,
`ray_color_it` ignores the hit's material entirely — it never calls
`Material::scatter`; it always continues with the diffuse bounce
`(rec.p, (rec.p + rec.normal + rand) - rec.p)` and contributes a fixed
per-bounce factor `0.5`, i.e. the color equals `0.5` times the color
of the bounced ray at depth-1 (with the random stream advanced).
Consequently the color of a path that escapes after `n` bounces is
`0.5^n * background_color`, and a path that never escapes is black. -/
theorem ray_color_it_bounce_recurrence (world : RegionR) (r : RayR)
    (depth : ℕ) (rng : ℕ → Vec3 ℝ) (rec : HitRecordR)
    (hd : 0 < depth) (hhit : world.hitf r = some rec) :
    ray_color_it r world depth rng =
      (0.5 : ℝ) • ray_color_it
        ⟨rec.p, (rec.p + rec.normal + rng 0) - rec.p⟩
        world (depth - 1) (fun k => rng (k + 1)) := by
  obtain ⟨d, rfl⟩ : ∃ d, depth = d + 1 := ⟨depth - 1, by omega⟩
  rw [ray_color_it, ray_color_it, ray_color_it_aux, hhit]
  simp only [Nat.add_sub_cancel]
  exact ray_color_it_aux_shift world rng d _ 0

/-- The concrete hit record for the C1 counterexample: a Lambert
material with black albedo (`scatter` always returns
`Some(_, attenuation = black)`). -/
def c1Rec : HitRecordR :=
  ⟨⟨1, 0, 0⟩, ⟨0, 1, 0⟩, 1, true, .Lambert ⟨0, 0, 0⟩⟩

/-- A one-surface scene: rays from the origin hit `c1Rec`, rays from
anywhere else escape; the configured background color is white. -/
noncomputable def c1World : RegionR :=
  ⟨fun r => if r.orig.x = 0 then some c1Rec else none, ⟨1, 1, 1⟩⟩

def c1Ray : RayR := ⟨⟨0, 0, 0⟩, ⟨0, 0, -1⟩⟩

/-- The injected `random_in_unit_sphere()` stream: always `(0, 3, 0)`
(a value the actual generator can produce, cf. C10). -/
def c1Rng : ℕ → Vec3 ℝ := fun _ => ⟨0, 3, 0⟩

theorem c1_hit_first : c1World.hitf c1Ray = some c1Rec := by
  simp [c1World, c1Ray]

theorem c1_bounce_dir : (c1Rec.p + c1Rec.normal + c1Rng 0) - c1Rec.p =
    (⟨0, 4, 0⟩ : Vec3 ℝ) := by
  simp [c1Rec, c1Rng]
  norm_num

theorem c1_miss_bounced : c1World.hitf ⟨c1Rec.p, ⟨0, 4, 0⟩⟩ = none := by
  simp only [c1World]
  rw [if_neg (by simp [c1Rec])]

theorem c1_bg_bounced :
    c1World.background_color ⟨c1Rec.p, ⟨0, 4, 0⟩⟩ = WHITE := by
  rw [RegionR.background_color]
  have hu : unit_vector (⟨0, 4, 0⟩ : Vec3 ℝ) = ⟨0, 1, 0⟩ := by
    rw [unit_vector, Vec3.length, Vec3.length_squared]
    simp only
    rw [show ((0 : ℝ) * 0 + 4 * 4 + 0 * 0) = 4 ^ 2 from by norm_num,
      Real.sqrt_sq (by norm_num)]
    norm_num
  rw [hu]
  simp only
  rw [lerp]
  norm_num [WHITE, c1World, Vec3.smul_def, Vec3.add_def]

theorem c1_step1 (r2 : RayR) (n : ℕ) (hmiss : c1World.hitf r2 = none) :
    ray_color_it_aux c1World c1Rng r2 1 n =
      (0.5 : ℝ) ^ n • c1World.background_color r2 := by
  show ray_color_it_aux c1World c1Rng r2 (0 + 1) n = _
  rw [ray_color_it_aux, hmiss]

theorem c1_lhs : ray_color_it c1Ray c1World 2 c1Rng = ⟨1/2, 1/2, 1/2⟩ := by
  show ray_color_it c1Ray c1World (1 + 1) c1Rng = _
  rw [ray_color_it, ray_color_it_aux, c1_hit_first]
  simp only
  rw [c1_bounce_dir]
  rw [c1_step1 _ _ c1_miss_bounced, c1_bg_bounced]
  norm_num [WHITE, Vec3.smul_def]

theorem c1_rhs :
    (match Material.scatter c1Rec.material c1Ray c1Rec (c1Rng 0) 0 with
      | none => BLACK
      | some sa => sa.2 * ray_color_it sa.1 c1World (2 - 1) c1Rng) = BLACK := by
  have hsum : c1Rec.normal + c1Rng 0 = (⟨0, 4, 0⟩ : Vec3 ℝ) := by
    simp [c1Rec, c1Rng]
    norm_num
  have hnz : ¬ near_zero (c1Rec.normal + c1Rng 0) := by
    intro hz
    rw [hsum] at hz
    rcases hz with ⟨-, h4, -⟩
    rw [show ((⟨0, 4, 0⟩ : Vec3 ℝ)).y = 4 from rfl] at h4
    norm_num at h4
  have hsc : Material.scatter c1Rec.material c1Ray c1Rec (c1Rng 0) 0 =
      some (⟨c1Rec.p, c1Rec.normal + c1Rng 0⟩, ⟨0, 0, 0⟩) := by
    show Material.scatter (.Lambert ⟨0, 0, 0⟩) c1Ray c1Rec (c1Rng 0) 0 = _
    rw [Material.scatter]
    rw [if_neg hnz]
  rw [hsc]
  simp only [Vec3.mul_def, BLACK]
  norm_num

/-- C1 counterexample: for the one-surface Lambert-black scene, the
claim's equation — on a hit, the result is `scatter`'s attenuation
times the color of `scatter`'s ray at depth-1, black on absorption —
demands black (the albedo is black), but `ray_color_it` at depth 2
returns `(1/2, 1/2, 1/2)`: it never consults the material and applies
a hard-coded `0.5` to the white background of the escaped bounce. -/
theorem ray_color_it_scatter_claim_false :
    ray_color_it c1Ray c1World 2 c1Rng = ⟨1/2, 1/2, 1/2⟩ ∧
    (match Material.scatter c1Rec.material c1Ray c1Rec (c1Rng 0) 0 with
      | none => BLACK
      | some sa => sa.2 * ray_color_it sa.1 c1World (2 - 1) c1Rng) = BLACK ∧
    (⟨1/2, 1/2, 1/2⟩ : Vec3 ℝ) ≠ BLACK := by
  refine ⟨c1_lhs, c1_rhs, ?_⟩
  simp [BLACK]

/-- Witness for C1's amended recurrence at the concrete scene. -/
theorem ray_color_it_bounce_recurrence_witness :
    ray_color_it c1Ray c1World 2 c1Rng =
      (0.5 : ℝ) • ray_color_it
        ⟨c1Rec.p, (c1Rec.p + c1Rec.normal + c1Rng 0) - c1Rec.p⟩
        c1World (2 - 1) (fun k => c1Rng (k + 1)) :=
  ray_color_it_bounce_recurrence c1World c1Ray 2 c1Rng c1Rec (by omega) c1_hit_first
